import Mathlib

/-!
# Verification of the capacity-constrained weekly allocation engine

Shallow embedding of the roadmap-planning prototype: the frontend component
(`normaliseInitiatives`, `safeWeeks`, the `schedule` memo, `onDragEnd`) and the
backend (`normalizeInitiatives`, the validation prefixes of the two producer
endpoints).

JavaScript numbers are modelled as exact rationals extended with a `nan`
element (`JsNum`).  NaN propagates through arithmetic and makes every
comparison false, as in IEEE/JS semantics.  (`±Infinity` is not modelled; the
only place non-finiteness is tested, `Number.isFinite(timelineWeeks)`, treats
infinities exactly like NaN, so `nan` stands for every non-finite value
there.)  Floating-point rounding is not modelled: arithmetic is exact, which
is the reading the specification itself mandates for the capacity bound.
-/

namespace Roadmap

/-- A JavaScript number: an exact rational, or NaN. -/
inductive JsNum where
  | nan : JsNum
  | num (q : ℚ) : JsNum
deriving DecidableEq, Repr

namespace JsNum

/-- JS addition: NaN-propagating. -/
def jadd : JsNum → JsNum → JsNum
  | num a, num b => num (a + b)
  | _, _ => nan

/-- JS subtraction: NaN-propagating. -/
def jsub : JsNum → JsNum → JsNum
  | num a, num b => num (a - b)
  | _, _ => nan

/-- `Math.min`: NaN-propagating. -/
def jmin : JsNum → JsNum → JsNum
  | num a, num b => num (min a b)
  | _, _ => nan

/-- JS division.  Division by zero (`±Infinity`/NaN in JS) is collapsed to
`nan`; it is unreachable in the engine because the divisor `safeWeeks` is
always a positive rational. -/
def jdiv : JsNum → JsNum → JsNum
  | num a, num b => if b = 0 then nan else num (a / b)
  | _, _ => nan

/-- JS `<`: false whenever either side is NaN. -/
def jlt : JsNum → JsNum → Bool
  | num a, num b => decide (a < b)
  | _, _ => false

/-- JS `<=`: false whenever either side is NaN. -/
def jle : JsNum → JsNum → Bool
  | num a, num b => decide (a ≤ b)
  | _, _ => false

/-- JS truthiness of a number: `0` and NaN are falsy. -/
def jsTruthy : JsNum → Bool
  | num q => decide (q ≠ 0)
  | nan => false

/-- JS `x || y` on numbers: `y` when `x` is falsy. -/
def jsOr (x y : JsNum) : JsNum := if jsTruthy x then x else y

/-- `Number.isFinite`. -/
def jsFinite : JsNum → Bool
  | num _ => true
  | nan => false

/-- `Math.max(1, x)`. -/
def jmax1 : JsNum → JsNum
  | num q => num (max 1 q)
  | nan => nan

/-- `Math.round(x)`: round half toward `+∞`, matching Mathlib's `round`
(`⌊x + 1/2⌋`). -/
def jround : JsNum → JsNum
  | num q => num (round q)
  | nan => nan

end JsNum

open JsNum

/-- The `Initiative` record of the source (`interface Initiative`).  Numeric
fields are JS numbers. -/
structure Initiative where
  id : JsNum
  title : String
  effortManDays : JsNum
  week : JsNum
  okr : String
  taskDependencies : List String
  teamDependencies : List String
deriving DecidableEq, Repr

/-- An externally supplied (`any`-typed) initiative record, after JS coercion
of each field: numeric fields hold the result of `Number(...)` /
`Number.isFinite(...)` inspection (so `nan` covers every non-numeric value),
string fields hold the result of string coercion with `""` covering
missing/blank, and dependency fields are `none` when not an array. -/
structure RawInitiative where
  id : JsNum
  title : String
  effortManDays : JsNum
  week : JsNum
  okr : String
  taskDependencies : Option (List String)
  teamDependencies : Option (List String)
deriving DecidableEq, Repr

/-- Frontend `normaliseInitiatives`, indexed from `idx`; `now` models
`Date.now()`. -/
def normaliseFrom (now : ℚ) : ℕ → List RawInitiative → List Initiative
  | _, [] => []
  | idx, i :: rest =>
    { id := if jsFinite i.id then i.id else num (now + idx)
      title := if i.title = "" then "Task " ++ toString (idx + 1) else i.title
      effortManDays := jround (jsOr i.effortManDays (num 0))
      week := jsOr i.week (num 1)
      okr := if i.okr = "" then "Unassigned" else i.okr
      taskDependencies := i.taskDependencies.getD []
      teamDependencies := i.teamDependencies.getD [] } :: normaliseFrom now (idx + 1) rest

/-- Frontend `normaliseInitiatives` (the pure data normaliser of the
component file): `Math.round(Number(i.effortManDays) || 0)` etc. -/
def normaliseInitiatives (now : ℚ) (raw : List RawInitiative) : List Initiative :=
  normaliseFrom now 0 raw

/-- Backend `normalizeInitiatives`, indexed from `idx`; `now` models
`Date.now()`.  Note: `effortManDays: Number(i.effortManDays) || 0` — the
backend does NOT apply `Math.round`, unlike the frontend. -/
def normalizeFrom (now : ℚ) : ℕ → List RawInitiative → List Initiative
  | _, [] => []
  | idx, i :: rest =>
    { id := if jsFinite i.id then i.id else num (now + idx)
      title := if i.title = "" then "Task " ++ toString (idx + 1) else i.title
      effortManDays := jsOr i.effortManDays (num 0)
      week := jsOr i.week (num 1)
      okr := if i.okr = "" then "Unassigned" else i.okr
      taskDependencies := i.taskDependencies.getD []
      teamDependencies := i.teamDependencies.getD [] } :: normalizeFrom now (idx + 1) rest

/-- Backend `normalizeInitiatives` (server.js). -/
def normalizeInitiatives (now : ℚ) (raw : List RawInitiative) : List Initiative :=
  normalizeFrom now 0 raw

/-- `safeWeeks = Number.isFinite(timelineWeeks) && timelineWeeks > 0 ?
timelineWeeks : 1`.  Always a positive rational. -/
def safeWeeks (timelineWeeks : JsNum) : ℚ :=
  match timelineWeeks with
  | num q => if 0 < q then q else 1
  | nan => 1

/-- `for (let w = 1; w <= safeWeeks; w++) byWeek[w] = []`: an association
list with keys `1, 2, …, ⌊safeWeeks⌋` (as JS numeric object keys), each
bound to an empty fragment list. -/
def initWeeks (s : ℚ) : List (ℚ × List Initiative) :=
  (List.range (Int.toNat ⌊s⌋)).map (fun k => (((k + 1 : ℕ) : ℚ), ([] : List Initiative)))

/-- `byWeek[w]` lookup: `none` models JS `undefined` (missing key). -/
def lookupW (w : ℚ) : List (ℚ × List Initiative) → Option (List Initiative)
  | [] => none
  | (k, l) :: t => if k = w then some l else lookupW w t

/-- `byWeek[w].push(frag)`: append `frag` to the list stored at key `w`. -/
def updateW (w : ℚ) (frag : Initiative) : List (ℚ × List Initiative) → List (ℚ × List Initiative)
  | [] => []
  | (k, l) :: t => if k = w then (k, l ++ [frag]) :: t else (k, l) :: updateW w frag t

/-- `list.reduce((s, i) => s + i.effortManDays, 0)`: JS left fold with JS
addition (NaN-propagating). -/
def sumEff (l : List Initiative) : JsNum :=
  l.foldl (fun acc i => jadd acc i.effortManDays) (num 0)

/-- The sort comparator `(a, b) => a.week - b.week || a.id - b.id`, turned
into the "a sorts no later than b" Boolean used by a stable sort: the ECMA
`SortCompare` treats a NaN comparator result as `+0`, so NaN means "equal". -/
def jsLeB (a b : Initiative) : Bool :=
  let d1 := jsub a.week b.week
  match (if jsTruthy d1 then d1 else jsub a.id b.id) with
  | nan => true
  | num q => decide (q ≤ 0)

/-- Stable insertion into a list sorted by `jsLeB`. -/
def jsInsert (x : Initiative) : List Initiative → List Initiative
  | [] => [x]
  | y :: t => if jsLeB x y then x :: y :: t else y :: jsInsert x t

/-- `[...initiatives].sort((a, b) => a.week - b.week || a.id - b.id)`:
a stable sort by the source comparator (JS `Array.prototype.sort` is
stable; for a consistent comparator any stable sort yields its result). -/
def jsSort : List Initiative → List Initiative
  | [] => []
  | x :: t => jsInsert x (jsSort t)

/-- What the placement loop produced for one initiative: the fragments it
emitted into weeks, in emission order, and the final `remaining` value. -/
structure ItemResult where
  emitted : List Initiative
  remaining : JsNum
deriving DecidableEq, Repr

/-- Fuel bound for the placement loop starting at cursor `q`: the loop stops
at the latest once `w` exceeds `safeWeeks`, i.e. within
`(⌊s⌋ + 2 - ⌈q⌉).toNat` iterations. -/
def weekFuel (s q : ℚ) : ℕ := (⌊s⌋ + 2 - ⌈q⌉).toNat

/-- The inner placement loop of `schedule` (source lines 82–93):

    while (remaining > 0 && w <= safeWeeks) {
      const used = byWeek[w].reduce((s, i) => s + i.effortManDays, 0)
      const capacityLeft = weeklyCapacity - used
      if (capacityLeft <= 0) { w++; continue }
      const effortThisWeek = Math.min(remaining, capacityLeft)
      byWeek[w].push({ ...item, effortManDays: effortThisWeek, week: w })
      remaining -= effortThisWeek
      w++
    }

The cursor `w` is a finite rational here (the NaN case, where the loop never
runs, is handled by the caller `placeItem`).  `byWeek[w]` being `undefined`
(key `w` absent, e.g. a fractional `w`) makes `.reduce` throw a `TypeError`,
modelled by the `Except.error` branch.  The structural `fuel` parameter is
an upper bound on the iteration count; `placeItem` always supplies
`weekFuel s w`, which is enough, so the fuel-exhausted branch (which exits
the loop) is never the deciding one — this is proved below.  The loop also
accumulates the fragments emitted for the current item (`emitted`), which
the source interleaves into `byWeek`; recording them separately changes
nothing observable. -/
def placeLoop (cap : JsNum) (s : ℚ) (item : Initiative) :
    ℕ → JsNum → ℚ → List (ℚ × List Initiative) → List Initiative →
    Except String (List (ℚ × List Initiative) × JsNum × List Initiative)
  | 0, remaining, _, byWeek, emitted => .ok (byWeek, remaining, emitted)
  | fuel + 1, remaining, w, byWeek, emitted =>
    -- `used = sumEff frags`, `capacityLeft = jsub cap used`,
    -- `effortThisWeek = jmin remaining capacityLeft`,
    -- `frag = { ...item, effortManDays: effortThisWeek, week: w }`
    -- (the source's `let`s are inlined here).
    if jlt (num 0) remaining && decide (w ≤ s) then
      match lookupW w byWeek with
      | none => .error "TypeError: byWeek[w] is undefined"
      | some frags =>
        if jle (jsub cap (sumEff frags)) (num 0) then
          placeLoop cap s item fuel remaining (w + 1) byWeek emitted
        else
          placeLoop cap s item fuel
            (jsub remaining (jmin remaining (jsub cap (sumEff frags)))) (w + 1)
            (updateW w { item with
                effortManDays := jmin remaining (jsub cap (sumEff frags)),
                week := num w } byWeek)
            (emitted ++ [{ item with
                effortManDays := jmin remaining (jsub cap (sumEff frags)),
                week := num w }])
    else .ok (byWeek, remaining, emitted)

/-- Placement of a single initiative (source lines 79–93): `remaining =
item.effortManDays`, `w = Math.max(1, item.week)`; when `item.week` is NaN
the cursor is NaN, so `w <= safeWeeks` is false and the loop body never
runs. -/
def placeItem (cap : JsNum) (s : ℚ) (byWeek : List (ℚ × List Initiative))
    (item : Initiative) :
    Except String (List (ℚ × List Initiative) × ItemResult) :=
  match jmax1 item.week with
  | nan => .ok (byWeek, ⟨[], item.effortManDays⟩)
  | num q =>
    match placeLoop cap s item (weekFuel s q) item.effortManDays q byWeek [] with
    | .error e => .error e
    | .ok out => .ok (out.1, ⟨out.2.2, out.2.1⟩)

/-- The per-initiative loop of `schedule` (source lines 78–99), threading
`byWeek` and `backlog` and recording each initiative's `ItemResult`:
after the placement loop, `if (remaining > 0) backlog.push(item)` — the
original, unmodified record. -/
def goSchedule (cap : JsNum) (s : ℚ) :
    List Initiative → List (ℚ × List Initiative) → List Initiative → List ItemResult →
    Except String (List (ℚ × List Initiative) × List Initiative × List ItemResult)
  | [], byWeek, backlog, results => .ok (byWeek, backlog, results)
  | item :: rest, byWeek, backlog, results =>
    match placeItem cap s byWeek item with
    | .error e => .error e
    | .ok out =>
      goSchedule cap s rest out.1
        (backlog ++ (if jlt (num 0) out.2.remaining then [item] else [])) (results ++ [out.2])

/-- The output of the allocation engine: `{ byWeek, backlog }`. -/
structure Sched where
  byWeek : List (ℚ × List Initiative)
  backlog : List Initiative
deriving DecidableEq, Repr

/-- The `schedule` memo (source lines 68–102): derive `safeWeeks` and
`weeklyCapacity = manDays / safeWeeks`, initialise every week key, sort the
initiatives by `week` then `id`, run the placement loop over each, and
return `{ byWeek, backlog }`. -/
def schedule (initiatives : List Initiative) (timelineWeeks manDays : JsNum) :
    Except String Sched :=
  -- `s = safeWeeks`, `cap = weeklyCapacity = manDays / safeWeeks` (inlined).
  match goSchedule (jdiv manDays (num (safeWeeks timelineWeeks))) (safeWeeks timelineWeeks)
      (jsSort initiatives) (initWeeks (safeWeeks timelineWeeks)) [] [] with
  | .error e => .error e
  | .ok out => .ok ⟨out.1, out.2.1⟩

/-- Outcome of the deterministic validation prefix of a producer endpoint:
either an early rejection response, or control reaching the external
producer call. -/
inductive ProducerOutcome where
  | reject (status : ℕ) (msg : String) : ProducerOutcome
  | callProducer : ProducerOutcome
deriving DecidableEq, Repr

/-- Validation prefix of `POST /ai/generate-roadmap` (server.js lines
69–90): `if (!Array.isArray(okrs) || okrs.length === 0) return
res.status(400)...` before the `fetch` to the producer.  `none` models a
missing/non-array `okrs`. -/
def generateRoadmapGate (okrs : Option (List String)) : ProducerOutcome :=
  match okrs with
  | none => .reject 400 "At least one OKR is required"
  | some l =>
    if l.length = 0 then .reject 400 "At least one OKR is required"
    else .callProducer

/-- Validation prefix of `POST /ai/modify-roadmap` (server.js lines
197–222): `if (!command) return res.status(400)...` before the `fetch`.
`none` models a missing `command`; the empty string is the only falsy
string. -/
def modifyRoadmapGate (command : Option String) : ProducerOutcome :=
  match command with
  | none => .reject 400 "Command is required"
  | some c => if c = "" then .reject 400 "Command is required" else .callProducer

/-! ## Basic facts about JS numbers, sums, and the week map -/

theorem jlt_zero_iff {a : JsNum} : jlt (num 0) a = true ↔ ∃ q, a = num q ∧ 0 < q := by
  cases a with
  | nan => simp [jlt]
  | num q => simp [jlt]

theorem jle_num_num {a b : ℚ} : jle (num a) (num b) = true ↔ a ≤ b := by simp [jle]

theorem sumEff_nil : sumEff [] = num 0 := rfl

theorem sumEff_append_one (l : List Initiative) (f : Initiative) :
    sumEff (l ++ [f]) = jadd (sumEff l) f.effortManDays := by
  simp [sumEff, List.foldl_append]

theorem sumEff_go_num (l : List Initiative)
    (h : ∀ f ∈ l, ∃ e, f.effortManDays = num e) :
    ∀ a : ℚ, ∃ t, l.foldl (fun acc i => jadd acc i.effortManDays) (num a) = num t := by
  induction l with
  | nil => intro a; exact ⟨a, rfl⟩
  | cons f rest ih =>
    intro a
    obtain ⟨e, he⟩ := h f (List.mem_cons_self _ _)
    have hrest : ∀ g ∈ rest, ∃ e, g.effortManDays = num e :=
      fun g hg => h g (List.mem_cons_of_mem _ hg)
    simpa [he, jadd] using ih hrest (a + e)

theorem sumEff_num_of (l : List Initiative)
    (h : ∀ f ∈ l, ∃ e, f.effortManDays = num e) : ∃ t, sumEff l = num t :=
  sumEff_go_num l h 0

theorem lookupW_mem {w : ℚ} {bw : List (ℚ × List Initiative)} {l : List Initiative}
    (h : lookupW w bw = some l) : (w, l) ∈ bw := by
  induction bw with
  | nil => simp [lookupW] at h
  | cons p t ih =>
    obtain ⟨k, l'⟩ := p
    by_cases hk : k = w
    · subst hk
      simp [lookupW] at h
      subst h
      exact List.mem_cons_self _ _
    · simp [lookupW, hk] at h
      exact List.mem_cons_of_mem _ (ih h)

theorem lookupW_isSome_iff {w : ℚ} {bw : List (ℚ × List Initiative)} :
    (lookupW w bw).isSome ↔ w ∈ bw.map Prod.fst := by
  induction bw with
  | nil => simp [lookupW]
  | cons p t ih =>
    obtain ⟨k, l'⟩ := p
    by_cases hk : k = w
    · subst hk; simp [lookupW]
    · simp [lookupW, hk, ih, Ne.symm hk]

theorem updateW_keys (w : ℚ) (f : Initiative) (bw : List (ℚ × List Initiative)) :
    (updateW w f bw).map Prod.fst = bw.map Prod.fst := by
  induction bw with
  | nil => rfl
  | cons p t ih =>
    obtain ⟨k, l⟩ := p
    by_cases hk : k = w <;> simp [updateW, hk, ih]

theorem updateW_entry {w : ℚ} {f : Initiative} {bw : List (ℚ × List Initiative)}
    {p : ℚ × List Initiative} (hp : p ∈ updateW w f bw) :
    p ∈ bw ∨ ∃ l, lookupW w bw = some l ∧ p = (w, l ++ [f]) := by
  induction bw with
  | nil => simp [updateW] at hp
  | cons q t ih =>
    obtain ⟨k, l'⟩ := q
    by_cases hk : k = w
    · subst hk
      simp [updateW] at hp
      rcases hp with hp | hp
      · exact Or.inr ⟨l', by simp [lookupW], by simp [hp]⟩
      · exact Or.inl (List.mem_cons_of_mem _ hp)
    · simp [updateW, hk] at hp
      rcases hp with hp | hp
      · exact Or.inl (by simp [hp])
      · rcases ih hp with h | ⟨l, hl, hpl⟩
        · exact Or.inl (List.mem_cons_of_mem _ h)
        · exact Or.inr ⟨l, by simp [lookupW, hk, hl], hpl⟩

/-- `bw'` refines `bw`: same keys in the same order, every fragment list
extended on the right (fragments are only ever appended, never removed). -/
def extW (bw bw' : List (ℚ × List Initiative)) : Prop :=
  List.Forall₂ (fun p q => p.1 = q.1 ∧ ∃ t, q.2 = p.2 ++ t) bw bw'

theorem extW_refl (bw : List (ℚ × List Initiative)) : extW bw bw := by
  induction bw with
  | nil => exact List.Forall₂.nil
  | cons p t ih => exact List.Forall₂.cons ⟨rfl, [], by simp⟩ ih

theorem extW_trans {a b c : List (ℚ × List Initiative)} (h₁ : extW a b) (h₂ : extW b c) :
    extW a c := by
  induction h₁ generalizing c with
  | nil => cases h₂; exact List.Forall₂.nil
  | cons hpq _ ih =>
    cases h₂ with
    | cons hqr h₂t =>
      refine List.Forall₂.cons ⟨hpq.1.trans hqr.1, ?_⟩ (ih h₂t)
      obtain ⟨t₁, ht₁⟩ := hpq.2
      obtain ⟨t₂, ht₂⟩ := hqr.2
      exact ⟨t₁ ++ t₂, by simp [ht₂, ht₁]⟩

theorem updateW_extW (w : ℚ) (f : Initiative) (bw : List (ℚ × List Initiative)) :
    extW bw (updateW w f bw) := by
  induction bw with
  | nil => exact List.Forall₂.nil
  | cons p t ih =>
    obtain ⟨k, l⟩ := p
    by_cases hk : k = w
    · subst hk
      simp only [updateW, if_pos rfl]
      exact List.Forall₂.cons ⟨rfl, ⟨[f], rfl⟩⟩ (extW_refl t)
    · simp only [updateW, if_neg hk]
      exact List.Forall₂.cons ⟨rfl, ⟨[], by simp⟩⟩ ih

/-- Fragment `f` appears in some week of `bw`. -/
def memBW (f : Initiative) (bw : List (ℚ × List Initiative)) : Prop :=
  ∃ k l, (k, l) ∈ bw ∧ f ∈ l

theorem memBW_mono {f : Initiative} {bw bw' : List (ℚ × List Initiative)}
    (hext : extW bw bw') (h : memBW f bw) : memBW f bw' := by
  obtain ⟨k, l, hkl, hf⟩ := h
  induction hext with
  | nil => simp at hkl
  | cons hpq htail ih =>
    rcases List.mem_cons.mp hkl with h | h
    · rename_i p q _ _
      obtain ⟨t, ht⟩ := hpq.2
      refine ⟨q.1, q.2, List.mem_cons_self _ _, ?_⟩
      have hl : p.2 = l := by rw [← h]
      rw [ht, hl]
      exact List.mem_append_left _ hf
    · obtain ⟨k', l', hkl', hf'⟩ := ih h
      exact ⟨k', l', List.mem_cons_of_mem _ hkl', hf'⟩

theorem updateW_memBW {w : ℚ} {bw : List (ℚ × List Initiative)} {l : List Initiative}
    (f : Initiative) (h : lookupW w bw = some l) : memBW f (updateW w f bw) := by
  induction bw with
  | nil => simp [lookupW] at h
  | cons p t ih =>
    obtain ⟨k, l'⟩ := p
    by_cases hk : k = w
    · subst hk
      exact ⟨k, l' ++ [f], by simp [updateW], by simp⟩
    · simp [lookupW, hk] at h
      obtain ⟨k', l'', hmem, hf⟩ := ih h
      exact ⟨k', l'', by simp [updateW, hk, List.mem_cons_of_mem, hmem], hf⟩

/-! ## Invariants of the placement loop -/

/-- Every fragment stored in the week map has a numeric (non-NaN) effort. -/
def allNumW (bw : List (ℚ × List Initiative)) : Prop :=
  ∀ p ∈ bw, ∀ f ∈ p.2, ∃ e, f.effortManDays = num e

/-- Every week's fragment-effort sum is a rational bounded by `c`. -/
def weekOkW (c : ℚ) (bw : List (ℚ × List Initiative)) : Prop :=
  ∀ p ∈ bw, ∃ t, sumEff p.2 = num t ∧ t ≤ c

theorem updateW_allNumW {bw : List (ℚ × List Initiative)} {frag : Initiative} {w : ℚ}
    (h : allNumW bw) (hf : ∃ e, frag.effortManDays = num e) :
    allNumW (updateW w frag bw) := by
  intro p hp f hfp
  rcases updateW_entry hp with hmem | ⟨l, hl, rfl⟩
  · exact h p hmem f hfp
  · simp only [List.mem_append, List.mem_singleton] at hfp
    rcases hfp with hfl | rfl
    · exact h _ (lookupW_mem hl) f hfl
    · exact hf

theorem placeLoop_keys {cap : JsNum} {s : ℚ} {item : Initiative} :
    ∀ {fuel : ℕ} {rem : JsNum} {w : ℚ} {bw bw' : List (ℚ × List Initiative)}
      {em em' : List Initiative} {rem' : JsNum},
    placeLoop cap s item fuel rem w bw em = .ok (bw', rem', em') →
    bw'.map Prod.fst = bw.map Prod.fst := by
  intro fuel
  induction fuel with
  | zero =>
    intro rem w bw bw' em em' rem' h
    simp only [placeLoop, Except.ok.injEq, Prod.mk.injEq] at h
    rw [← h.1]
  | succ fuel ih =>
    intro rem w bw bw' em em' rem' h
    rw [placeLoop] at h
    split at h
    · split at h
      · exact absurd h (by simp)
      · split at h
        · exact ih h
        · rw [ih h, updateW_keys]
    · simp only [Except.ok.injEq, Prod.mk.injEq] at h
      rw [← h.1]

theorem placeLoop_extW {cap : JsNum} {s : ℚ} {item : Initiative} :
    ∀ {fuel : ℕ} {rem : JsNum} {w : ℚ} {bw bw' : List (ℚ × List Initiative)}
      {em em' : List Initiative} {rem' : JsNum},
    placeLoop cap s item fuel rem w bw em = .ok (bw', rem', em') →
    extW bw bw' := by
  intro fuel
  induction fuel with
  | zero =>
    intro rem w bw bw' em em' rem' h
    simp only [placeLoop, Except.ok.injEq, Prod.mk.injEq] at h
    rw [← h.1]; exact extW_refl _
  | succ fuel ih =>
    intro rem w bw bw' em em' rem' h
    rw [placeLoop] at h
    split at h
    · split at h
      · exact absurd h (by simp)
      · split at h
        · exact ih h
        · exact extW_trans (updateW_extW _ _ _) (ih h)
    · simp only [Except.ok.injEq, Prod.mk.injEq] at h
      rw [← h.1]; exact extW_refl _

theorem placeLoop_emitted {cap : JsNum} {s : ℚ} {item : Initiative} :
    ∀ {fuel : ℕ} {rem : JsNum} {w : ℚ} {bw bw' : List (ℚ × List Initiative)}
      {em em' : List Initiative} {rem' : JsNum},
    placeLoop cap s item fuel rem w bw em = .ok (bw', rem', em') →
    ∀ f ∈ em', f ∈ em ∨ memBW f bw' := by
  intro fuel
  induction fuel with
  | zero =>
    intro rem w bw bw' em em' rem' h
    simp only [placeLoop, Except.ok.injEq, Prod.mk.injEq] at h
    rw [← h.2.2]; exact fun f hf => Or.inl hf
  | succ fuel ih =>
    intro rem w bw bw' em em' rem' h
    rw [placeLoop] at h
    split at h
    · rename_i hguard
      split at h
      · exact absurd h (by simp)
      · rename_i frags hlk
        split at h
        · exact ih h
        · intro f hf
          rcases ih h f hf with hmem | hbw
          · rcases List.mem_append.mp hmem with hmem | hmem
            · exact Or.inl hmem
            · right
              rw [List.mem_singleton] at hmem
              subst hmem
              exact memBW_mono (placeLoop_extW h) (updateW_memBW _ hlk)
          · exact Or.inr hbw
    · simp only [Except.ok.injEq, Prod.mk.injEq] at h
      rw [← h.2.2]; exact fun f hf => Or.inl hf

theorem placeLoop_conserve {c s : ℚ} {item : Initiative} :
    ∀ {fuel : ℕ} {rem : JsNum} {w : ℚ} {bw bw' : List (ℚ × List Initiative)}
      {em em' : List Initiative} {rem' : JsNum} {r : ℚ},
    placeLoop (num c) s item fuel rem w bw em = .ok (bw', rem', em') →
    rem = num r → 0 ≤ r → allNumW bw →
    ∃ r₂, rem' = num r₂ ∧ 0 ≤ r₂ ∧ allNumW bw' ∧
      ∀ t, sumEff em = num t → sumEff em' = num (t + (r - r₂)) := by
  intro fuel
  induction fuel with
  | zero =>
    intro rem w bw bw' em em' rem' r h hr h0 hbw
    simp only [placeLoop, Except.ok.injEq, Prod.mk.injEq] at h
    obtain ⟨hb, hrem, hem⟩ := h
    subst hb hrem hem
    exact ⟨r, hr, h0, hbw, fun t ht => by rw [ht]; ring_nf⟩
  | succ fuel ih =>
    intro rem w bw bw' em em' rem' r h hr h0 hbw
    subst hr
    rw [placeLoop] at h
    split at h
    · rename_i hguard
      split at h
      · exact absurd h (by simp)
      · rename_i frags hlk
        have hfrags : ∀ f ∈ frags, ∃ e, f.effortManDays = num e :=
          fun f hf => hbw _ (lookupW_mem hlk) f hf
        obtain ⟨u, hu⟩ := sumEff_num_of frags hfrags
        split at h
        · exact ih h rfl h0 hbw
        · rename_i hcl
          rw [hu] at h hcl
          simp only [jsub, jle, decide_eq_true_eq, not_le] at hcl
          have hmin : jmin (num r) (jsub (num c) (num u)) = num (min r (c - u)) := by
            simp [jmin, jsub]
          rw [hmin] at h
          have hrge : 0 ≤ r - min r (c - u) := by
            have : min r (c - u) ≤ r := min_le_left _ _
            linarith
          have hbw2 : allNumW (updateW w
              { item with effortManDays := num (min r (c - u)), week := num w } bw) :=
            updateW_allNumW hbw ⟨min r (c - u), rfl⟩
          have h' := ih (r := r - min r (c - u)) h (by simp [jsub]) hrge hbw2
          obtain ⟨r₂, hrem', hr₂0, hbw', hsum⟩ := h'
          refine ⟨r₂, hrem', hr₂0, hbw', fun t ht => ?_⟩
          have hsum2 : sumEff (em ++ [{ item with
              effortManDays := num (min r (c - u)), week := num w }]) =
              num (t + min r (c - u)) := by
            rw [sumEff_append_one, ht]; simp [jadd]
          have := hsum _ hsum2
          rw [this]; ring_nf
    · simp only [Except.ok.injEq, Prod.mk.injEq] at h
      obtain ⟨hb, hrem, hem⟩ := h
      subst hb hrem hem
      exact ⟨r, rfl, h0, hbw, fun t ht => by rw [ht]; ring_nf⟩

theorem placeLoop_cap {c s : ℚ} {item : Initiative} :
    ∀ {fuel : ℕ} {rem : JsNum} {w : ℚ} {bw bw' : List (ℚ × List Initiative)}
      {em em' : List Initiative} {rem' : JsNum},
    placeLoop (num c) s item fuel rem w bw em = .ok (bw', rem', em') →
    weekOkW c bw → weekOkW c bw' := by
  intro fuel
  induction fuel with
  | zero =>
    intro rem w bw bw' em em' rem' h hbw
    simp only [placeLoop, Except.ok.injEq, Prod.mk.injEq] at h
    rw [← h.1]; exact hbw
  | succ fuel ih =>
    intro rem w bw bw' em em' rem' h hbw
    rw [placeLoop] at h
    split at h
    · rename_i hguard
      split at h
      · exact absurd h (by simp)
      · rename_i frags hlk
        obtain ⟨u, hu, huc⟩ := hbw _ (lookupW_mem hlk)
        have hu' : sumEff frags = num u := hu
        split at h
        · exact ih h hbw
        · rename_i hcl
          rw [hu'] at h hcl
          simp only [jsub, jle, decide_eq_true_eq, not_le] at hcl
          simp only [Bool.and_eq_true, decide_eq_true_eq] at hguard
          obtain ⟨q, hq, hq0⟩ := jlt_zero_iff.mp hguard.1
          subst hq
          have hmin : jmin (num q) (jsub (num c) (num u)) = num (min q (c - u)) := by
            simp [jmin, jsub]
          rw [hmin] at h
          refine ih h ?_
          intro p hp
          rcases updateW_entry hp with hmem | ⟨l, hl, rfl⟩
          · exact hbw p hmem
          · have hlf : l = frags := by
              rw [hlk] at hl; exact (Option.some.injEq _ _ ▸ hl).symm
            subst hlf
            refine ⟨u + min q (c - u), ?_, ?_⟩
            · rw [sumEff_append_one, hu]; simp [jadd]
            · have : min q (c - u) ≤ c - u := min_le_right _ _
              linarith
    · simp only [Except.ok.injEq, Prod.mk.injEq] at h
      rw [← h.1]; exact hbw

/-! ## Invariants of the per-initiative loop -/

theorem placeItem_ok_elim {cap : JsNum} {s : ℚ} {byWeek bw' : List (ℚ × List Initiative)}
    {item : Initiative} {r : ItemResult}
    (h : placeItem cap s byWeek item = .ok (bw', r)) :
    (jmax1 item.week = nan ∧ bw' = byWeek ∧ r = ⟨[], item.effortManDays⟩) ∨
    ∃ q rem' em', jmax1 item.week = num q ∧
      placeLoop cap s item (weekFuel s q) item.effortManDays q byWeek [] =
        .ok (bw', rem', em') ∧ r = ⟨em', rem'⟩ := by
  rw [placeItem] at h
  split at h
  · rename_i hmax
    simp only [Except.ok.injEq, Prod.mk.injEq] at h
    exact Or.inl ⟨hmax, h.1.symm, h.2.symm⟩
  · rename_i q hmax
    split at h
    · exact absurd h (by simp)
    · rename_i out hpl
      simp only [Except.ok.injEq, Prod.mk.injEq] at h
      exact Or.inr ⟨q, out.2.1, out.2.2, hmax, by rw [hpl, ← h.1], h.2.symm⟩

theorem placeItem_keys {cap : JsNum} {s : ℚ} {byWeek bw' : List (ℚ × List Initiative)}
    {item : Initiative} {r : ItemResult}
    (h : placeItem cap s byWeek item = .ok (bw', r)) :
    bw'.map Prod.fst = byWeek.map Prod.fst := by
  rcases placeItem_ok_elim h with ⟨_, rfl, _⟩ | ⟨q, rem', em', _, hpl, _⟩
  · rfl
  · exact placeLoop_keys hpl

theorem placeItem_extW {cap : JsNum} {s : ℚ} {byWeek bw' : List (ℚ × List Initiative)}
    {item : Initiative} {r : ItemResult}
    (h : placeItem cap s byWeek item = .ok (bw', r)) : extW byWeek bw' := by
  rcases placeItem_ok_elim h with ⟨_, rfl, _⟩ | ⟨q, rem', em', _, hpl, _⟩
  · exact extW_refl _
  · exact placeLoop_extW hpl

theorem placeItem_emitted {cap : JsNum} {s : ℚ} {byWeek bw' : List (ℚ × List Initiative)}
    {item : Initiative} {r : ItemResult}
    (h : placeItem cap s byWeek item = .ok (bw', r)) :
    ∀ f ∈ r.emitted, memBW f bw' := by
  rcases placeItem_ok_elim h with ⟨_, _, rfl⟩ | ⟨q, rem', em', _, hpl, rfl⟩
  · intro f hf; simp at hf
  · intro f hf
    rcases placeLoop_emitted hpl f hf with hm | hm
    · simp at hm
    · exact hm

theorem placeItem_conserve {c s : ℚ} {byWeek bw' : List (ℚ × List Initiative)}
    {item : Initiative} {r : ItemResult} {e : ℚ}
    (h : placeItem (num c) s byWeek item = .ok (bw', r))
    (he : item.effortManDays = num e) (he0 : 0 ≤ e) (hbw : allNumW byWeek) :
    ∃ r₂, r.remaining = num r₂ ∧ 0 ≤ r₂ ∧ allNumW bw' ∧
      sumEff r.emitted = num (e - r₂) := by
  rcases placeItem_ok_elim h with ⟨_, rfl, rfl⟩ | ⟨q, rem', em', _, hpl, rfl⟩
  · exact ⟨e, he, he0, hbw, by rw [sumEff_nil]; congr 1; ring⟩
  · rw [he] at hpl
    obtain ⟨r₂, hrem', hr₂0, hbw', hsum⟩ := placeLoop_conserve hpl rfl he0 hbw
    refine ⟨r₂, hrem', hr₂0, hbw', ?_⟩
    have := hsum 0 sumEff_nil
    simpa using this

theorem placeItem_cap {c s : ℚ} {byWeek bw' : List (ℚ × List Initiative)}
    {item : Initiative} {r : ItemResult}
    (h : placeItem (num c) s byWeek item = .ok (bw', r))
    (hbw : weekOkW c byWeek) : weekOkW c bw' := by
  rcases placeItem_ok_elim h with ⟨_, rfl, _⟩ | ⟨q, rem', em', _, hpl, _⟩
  · exact hbw
  · exact placeLoop_cap hpl hbw

/-! ## Invariants of the whole scheduling pass -/

theorem goSchedule_keys {cap : JsNum} {s : ℚ} :
    ∀ {items : List Initiative} {bw bl res bw' bl' res'},
    goSchedule cap s items bw bl res = .ok (bw', bl', res') →
    bw'.map Prod.fst = bw.map Prod.fst := by
  intro items
  induction items with
  | nil =>
    intro bw bl res bw' bl' res' h
    simp only [goSchedule, Except.ok.injEq, Prod.mk.injEq] at h
    rw [← h.1]
  | cons item rest ih =>
    intro bw bl res bw' bl' res' h
    rw [goSchedule] at h
    split at h
    · exact absurd h (by simp)
    · rename_i out hp
      rw [ih h, placeItem_keys hp]

theorem goSchedule_extW {cap : JsNum} {s : ℚ} :
    ∀ {items : List Initiative} {bw bl res bw' bl' res'},
    goSchedule cap s items bw bl res = .ok (bw', bl', res') →
    extW bw bw' := by
  intro items
  induction items with
  | nil =>
    intro bw bl res bw' bl' res' h
    simp only [goSchedule, Except.ok.injEq, Prod.mk.injEq] at h
    rw [← h.1]; exact extW_refl _
  | cons item rest ih =>
    intro bw bl res bw' bl' res' h
    rw [goSchedule] at h
    split at h
    · exact absurd h (by simp)
    · rename_i out hp
      exact extW_trans (placeItem_extW hp) (ih h)

theorem goSchedule_backlog {cap : JsNum} {s : ℚ} :
    ∀ {items : List Initiative} {bw bl res bw' bl' res'},
    goSchedule cap s items bw bl res = .ok (bw', bl', res') →
    ∃ newRes, res' = res ++ newRes ∧ newRes.length = items.length ∧
      bl' = bl ++ (items.zip newRes).filterMap
        (fun p => if jlt (num 0) p.2.remaining then some p.1 else none) := by
  intro items
  induction items with
  | nil =>
    intro bw bl res bw' bl' res' h
    simp only [goSchedule, Except.ok.injEq, Prod.mk.injEq] at h
    exact ⟨[], by simp [← h.2.2, ← h.2.1]⟩
  | cons item rest ih =>
    intro bw bl res bw' bl' res' h
    rw [goSchedule] at h
    split at h
    · exact absurd h (by simp)
    · rename_i out hp
      obtain ⟨newRes', hres, hlen, hbl⟩ := ih h
      refine ⟨out.2 :: newRes', ?_, by simp [hlen], ?_⟩
      · simpa using hres
      · rw [hbl]
        by_cases hr : jlt (num 0) out.2.remaining = true
        · simp [hr]
        · simp [hr]

theorem goSchedule_emitted {cap : JsNum} {s : ℚ} :
    ∀ {items : List Initiative} {bw bl res bw' bl' res'},
    goSchedule cap s items bw bl res = .ok (bw', bl', res') →
    (∀ x ∈ res, ∀ f ∈ x.emitted, memBW f bw) →
    ∀ x ∈ res', ∀ f ∈ x.emitted, memBW f bw' := by
  intro items
  induction items with
  | nil =>
    intro bw bl res bw' bl' res' h hacc
    simp only [goSchedule, Except.ok.injEq, Prod.mk.injEq] at h
    rw [← h.2.2, ← h.1]
    exact hacc
  | cons item rest ih =>
    intro bw bl res bw' bl' res' h hacc
    rw [goSchedule] at h
    split at h
    · exact absurd h (by simp)
    · rename_i out hp
      refine ih h ?_
      intro x hx f hf
      rcases List.mem_append.mp hx with hx | hx
      · exact memBW_mono (placeItem_extW hp) (hacc x hx f hf)
      · rw [List.mem_singleton] at hx
        subst hx
        exact placeItem_emitted hp f hf

theorem goSchedule_conserve {m s : ℚ} :
    ∀ {items : List Initiative} {bw bl res bw' bl' res'},
    goSchedule (num m) s items bw bl res = .ok (bw', bl', res') →
    (∀ i ∈ items, ∃ e, i.effortManDays = num e ∧ 0 ≤ e) →
    allNumW bw →
    ∃ newRes, res' = res ++ newRes ∧ allNumW bw' ∧
      List.Forall₂ (fun item x => ∃ e r₂, item.effortManDays = num e ∧
        x.remaining = num r₂ ∧ 0 ≤ r₂ ∧ sumEff x.emitted = num (e - r₂))
        items newRes := by
  intro items
  induction items with
  | nil =>
    intro bw bl res bw' bl' res' h _ hbw
    simp only [goSchedule, Except.ok.injEq, Prod.mk.injEq] at h
    exact ⟨[], by simp [← h.2.2], by rw [← h.1]; exact hbw, List.Forall₂.nil⟩
  | cons item rest ih =>
    intro bw bl res bw' bl' res' h heff hbw
    rw [goSchedule] at h
    split at h
    · exact absurd h (by simp)
    · rename_i out hp
      obtain ⟨e, he, he0⟩ := heff item (List.mem_cons_self _ _)
      obtain ⟨r₂, hrem, hr₂0, hbw₁, hsum⟩ := placeItem_conserve hp he he0 hbw
      obtain ⟨newRes', hres, hbw', hfa⟩ := ih h
        (fun i hi => heff i (List.mem_cons_of_mem _ hi)) hbw₁
      refine ⟨out.2 :: newRes', by simpa using hres, hbw', ?_⟩
      exact List.Forall₂.cons ⟨e, r₂, he, hrem, hr₂0, hsum⟩ hfa

theorem goSchedule_cap {c s : ℚ} :
    ∀ {items : List Initiative} {bw bl res bw' bl' res'},
    goSchedule (num c) s items bw bl res = .ok (bw', bl', res') →
    weekOkW c bw → weekOkW c bw' := by
  intro items
  induction items with
  | nil =>
    intro bw bl res bw' bl' res' h hbw
    simp only [goSchedule, Except.ok.injEq, Prod.mk.injEq] at h
    rw [← h.1]; exact hbw
  | cons item rest ih =>
    intro bw bl res bw' bl' res' h hbw
    rw [goSchedule] at h
    split at h
    · exact absurd h (by simp)
    · rename_i out hp
      exact ih h (placeItem_cap hp hbw)

/-! ## The processing order -/

/-- "`a` is processed no later than `b`": ascending requested `week`, ties
broken by ascending `id`. -/
def lexLe (a b : Initiative) : Prop :=
  jlt a.week b.week = true ∨ (a.week = b.week ∧ jle a.id b.id = true)

/-- The initiative's `week` and `id` are both numeric (non-NaN). -/
def finKey (i : Initiative) : Prop := (∃ w, i.week = num w) ∧ (∃ d, i.id = num d)

theorem jsLeB_char {a b : Initiative} {wa wb ia ib : ℚ}
    (hwa : a.week = num wa) (hwb : b.week = num wb)
    (hia : a.id = num ia) (hib : b.id = num ib) :
    jsLeB a b = true ↔ (wa < wb ∨ (wa = wb ∧ ia ≤ ib)) := by
  unfold jsLeB
  rw [hwa, hwb, hia, hib]
  by_cases hw : wa = wb
  · subst hw
    simp [jsub, jsTruthy]
  · have h1 : wa - wb ≠ 0 := sub_ne_zero_of_ne hw
    simp only [jsub, jsTruthy, decide_eq_true_eq]
    rw [if_pos h1]
    simp only [decide_eq_true_eq, sub_nonpos]
    rw [le_iff_lt_or_eq]
    simp [hw]

theorem lexLe_char {a b : Initiative} {wa wb ia ib : ℚ}
    (hwa : a.week = num wa) (hwb : b.week = num wb)
    (hia : a.id = num ia) (hib : b.id = num ib) :
    lexLe a b ↔ (wa < wb ∨ (wa = wb ∧ ia ≤ ib)) := by
  simp [lexLe, jlt, jle, hwa, hwb, hia, hib]

theorem jsLeB_iff_lexLe {a b : Initiative} (ha : finKey a) (hb : finKey b) :
    jsLeB a b = true ↔ lexLe a b := by
  obtain ⟨⟨wa, hwa⟩, ⟨ia, hia⟩⟩ := ha
  obtain ⟨⟨wb, hwb⟩, ⟨ib, hib⟩⟩ := hb
  rw [jsLeB_char hwa hwb hia hib, lexLe_char hwa hwb hia hib]

theorem lexLe_total {a b : Initiative} (ha : finKey a) (hb : finKey b) :
    lexLe a b ∨ lexLe b a := by
  obtain ⟨⟨wa, hwa⟩, ⟨ia, hia⟩⟩ := ha
  obtain ⟨⟨wb, hwb⟩, ⟨ib, hib⟩⟩ := hb
  rw [lexLe_char hwa hwb hia hib, lexLe_char hwb hwa hib hia]
  rcases lt_trichotomy wa wb with h | h | h
  · exact Or.inl (Or.inl h)
  · subst h
    rcases le_total ia ib with h | h
    · exact Or.inl (Or.inr ⟨rfl, h⟩)
    · exact Or.inr (Or.inr ⟨rfl, h⟩)
  · exact Or.inr (Or.inl h)

theorem lexLe_trans {a b c : Initiative} (ha : finKey a) (hb : finKey b) (hc : finKey c)
    (hab : lexLe a b) (hbc : lexLe b c) : lexLe a c := by
  obtain ⟨⟨wa, hwa⟩, ⟨ia, hia⟩⟩ := ha
  obtain ⟨⟨wb, hwb⟩, ⟨ib, hib⟩⟩ := hb
  obtain ⟨⟨wc, hwc⟩, ⟨ic, hic⟩⟩ := hc
  rw [lexLe_char hwa hwb hia hib] at hab
  rw [lexLe_char hwb hwc hib hic] at hbc
  rw [lexLe_char hwa hwc hia hic]
  rcases hab with h1 | ⟨h1, h1'⟩ <;> rcases hbc with h2 | ⟨h2, h2'⟩
  · exact Or.inl (h1.trans h2)
  · exact Or.inl (h2 ▸ h1)
  · exact Or.inl (h1 ▸ h2)
  · exact Or.inr ⟨h1.trans h2, h1'.trans h2'⟩

theorem lexLe_antisymm_key {a b : Initiative} (ha : finKey a) (hb : finKey b)
    (hab : lexLe a b) (hba : lexLe b a) : a.week = b.week ∧ a.id = b.id := by
  obtain ⟨⟨wa, hwa⟩, ⟨ia, hia⟩⟩ := ha
  obtain ⟨⟨wb, hwb⟩, ⟨ib, hib⟩⟩ := hb
  rw [lexLe_char hwa hwb hia hib] at hab
  rw [lexLe_char hwb hwa hib hia] at hba
  rw [hwa, hwb, hia, hib]
  rcases hab with h1 | ⟨h1, h1'⟩ <;> rcases hba with h2 | ⟨h2, h2'⟩
  · exact absurd (h1.trans h2) (lt_irrefl _)
  · exact absurd h1 (h2 ▸ lt_irrefl _)
  · exact absurd h2 (h1 ▸ lt_irrefl _)
  · exact ⟨by rw [h1], by rw [le_antisymm h1' h2']⟩

theorem jsLeB_false_lexLe {a b : Initiative} (ha : finKey a) (hb : finKey b)
    (h : ¬ jsLeB a b = true) : lexLe b a := by
  rcases lexLe_total ha hb with hl | hl
  · exact absurd ((jsLeB_iff_lexLe ha hb).mpr hl) h
  · exact hl

theorem jsInsert_perm (x : Initiative) (l : List Initiative) :
    List.Perm (jsInsert x l) (x :: l) := by
  induction l with
  | nil => exact List.Perm.refl _
  | cons y t ih =>
    by_cases h : jsLeB x y = true
    · simp [jsInsert, h]
    · simp only [jsInsert, h, if_false]
      exact (List.Perm.cons y ih).trans (List.Perm.swap x y t)

theorem jsSort_perm (l : List Initiative) : List.Perm (jsSort l) l := by
  induction l with
  | nil => exact List.Perm.refl _
  | cons x t ih =>
    exact (jsInsert_perm _ _).trans (List.Perm.cons x ih)

theorem jsInsert_pairwise {x : Initiative} {l : List Initiative}
    (hx : finKey x) (hl : ∀ a ∈ l, finKey a) (hp : List.Pairwise lexLe l) :
    List.Pairwise lexLe (jsInsert x l) := by
  induction l with
  | nil => simp [jsInsert]
  | cons y t ih =>
    have hy : finKey y := hl y (List.mem_cons_self _ _)
    have ht : ∀ a ∈ t, finKey a := fun a ha => hl a (List.mem_cons_of_mem _ ha)
    rcases List.pairwise_cons.mp hp with ⟨hyt, hpt⟩
    by_cases h : jsLeB x y = true
    · simp only [jsInsert, h, if_true]
      refine List.Pairwise.cons ?_ hp
      intro z hz
      rcases List.mem_cons.mp hz with rfl | hz
      · exact (jsLeB_iff_lexLe hx hy).mp h
      · exact lexLe_trans hx hy (ht z hz) ((jsLeB_iff_lexLe hx hy).mp h) (hyt z hz)
    · simp only [jsInsert, h, if_false]
      refine List.Pairwise.cons ?_ (ih ht hpt)
      intro z hz
      have hz' : z ∈ x :: t := (jsInsert_perm x t).mem_iff.mp hz
      rcases List.mem_cons.mp hz' with rfl | hz'
      · exact jsLeB_false_lexLe hx hy h
      · exact hyt z hz'

theorem jsSort_pairwise {l : List Initiative} (hl : ∀ a ∈ l, finKey a) :
    List.Pairwise lexLe (jsSort l) := by
  induction l with
  | nil => simp [jsSort]
  | cons x t ih =>
    have ht : ∀ a ∈ t, finKey a := fun a ha => hl a (List.mem_cons_of_mem _ ha)
    refine jsInsert_pairwise (hl x (List.mem_cons_self _ _)) ?_ (ih ht)
    intro a ha
    exact ht a ((jsSort_perm t).mem_iff.mp ha)

theorem sorted_perm_unique :
    ∀ {l₁ l₂ : List Initiative}, List.Perm l₁ l₂ →
    List.Pairwise lexLe l₁ → List.Pairwise lexLe l₂ →
    (∀ a ∈ l₁, finKey a) → (l₁.map Initiative.id).Nodup → l₁ = l₂ := by
  intro l₁
  induction l₁ with
  | nil =>
    intro l₂ hperm _ _ _ _
    exact hperm.nil_eq
  | cons a t₁ ih =>
    intro l₂ hperm hp₁ hp₂ hfin hnd
    cases l₂ with
    | nil => exact absurd hperm.symm (by simp)
    | cons b t₂ =>
      rcases List.pairwise_cons.mp hp₁ with ⟨hat₁, hpt₁⟩
      rcases List.pairwise_cons.mp hp₂ with ⟨hbt₂, hpt₂⟩
      by_cases hab : a = b
      · subst hab
        have htp : List.Perm t₁ t₂ := hperm.cons_inv
        have : t₁ = t₂ := ih htp hpt₁ hpt₂
          (fun x hx => hfin x (List.mem_cons_of_mem _ hx))
          (List.Nodup.of_cons (by simpa using hnd))
        rw [this]
      · exfalso
        have hbmem : b ∈ a :: t₁ := hperm.mem_iff.mpr (List.mem_cons_self _ _)
        have hamem : a ∈ b :: t₂ := hperm.mem_iff.mp (List.mem_cons_self _ _)
        have hbt₁ : b ∈ t₁ := by
          rcases List.mem_cons.mp hbmem with h | h
          · exact absurd h.symm hab
          · exact h
        have hat₂ : a ∈ t₂ := by
          rcases List.mem_cons.mp hamem with h | h
          · exact absurd h hab
          · exact h
        have hfa : finKey a := hfin a (List.mem_cons_self _ _)
        have hfb : finKey b := hfin b (List.mem_cons_of_mem _ hbt₁)
        have h1 : lexLe a b := hat₁ b hbt₁
        have h2 : lexLe b a := hbt₂ a hat₂
        have hid : a.id = b.id := (lexLe_antisymm_key hfa hfb h1 h2).2
        exact hab (List.inj_on_of_nodup_map hnd (List.mem_cons_self _ _)
          (List.mem_cons_of_mem _ hbt₁) hid)

/-- Two lists that are permutations of each other, with numeric weeks/ids and
pairwise-distinct ids, sort identically. -/
theorem jsSort_eq_of_perm {l₁ l₂ : List Initiative} (hperm : List.Perm l₁ l₂)
    (hfin : ∀ a ∈ l₁, finKey a) (hnd : (l₁.map Initiative.id).Nodup) :
    jsSort l₁ = jsSort l₂ := by
  have hperm2 : List.Perm (jsSort l₁) (jsSort l₂) :=
    ((jsSort_perm l₁).trans hperm).trans (jsSort_perm l₂).symm
  refine sorted_perm_unique hperm2 (jsSort_pairwise hfin) (jsSort_pairwise ?_) ?_ ?_
  · intro a ha
    exact hfin a (hperm.mem_iff.mpr ha)
  · intro a ha
    exact hfin a ((jsSort_perm l₁).mem_iff.mp ha)
  · exact ((jsSort_perm l₁).map Initiative.id).nodup_iff.mpr hnd

/-! ## Fuel bound and totality of the placement loop -/

theorem weekFuel_pos {s q : ℚ} (h : q ≤ s) : 1 ≤ weekFuel s q := by
  unfold weekFuel
  have h1 : (⌈q⌉ : ℤ) ≤ ⌊s⌋ + 1 :=
    le_trans (Int.ceil_mono h) (Int.ceil_le_floor_add_one s)
  omega

theorem weekFuel_succ {s q : ℚ} (h : q ≤ s) : weekFuel s (q + 1) + 1 = weekFuel s q := by
  unfold weekFuel
  rw [Int.ceil_add_one]
  have h1 : (⌈q⌉ : ℤ) ≤ ⌊s⌋ + 1 :=
    le_trans (Int.ceil_mono h) (Int.ceil_le_floor_add_one s)
  omega

theorem weekFuel_zero_not_le {s q : ℚ} (h : weekFuel s q = 0) : ¬ q ≤ s := by
  intro hle
  have := weekFuel_pos hle
  omega

/-- Fuel irrelevance: any fuel at least `weekFuel s w` gives the same result,
i.e. the loop always halts within `weekFuel s w` iterations. -/
theorem placeLoop_fuel {cap : JsNum} {s : ℚ} {item : Initiative} :
    ∀ (fuel : ℕ) {rem : JsNum} {w : ℚ} {bw : List (ℚ × List Initiative)}
      {em : List Initiative},
    weekFuel s w ≤ fuel →
    placeLoop cap s item fuel rem w bw em =
      placeLoop cap s item (weekFuel s w) rem w bw em := by
  intro fuel
  induction fuel with
  | zero =>
    intro rem w bw em hf
    rw [Nat.le_zero.mp hf]
  | succ fuel ih =>
    intro rem w bw em hf
    cases hwf : weekFuel s w with
    | zero =>
      have hns : ¬ w ≤ s := weekFuel_zero_not_le hwf
      simp [placeLoop, hns]
    | succ g =>
      by_cases hws : w ≤ s
      · have hstep : weekFuel s (w + 1) = g := by
          have h2 := weekFuel_succ hws
          omega
        rw [placeLoop, placeLoop]
        by_cases hg : (jlt (num 0) rem && decide (w ≤ s)) = true
        · rw [if_pos hg, if_pos hg]
          cases hlk : lookupW w bw with
          | none => rfl
          | some frags =>
            dsimp only
            by_cases hcl : jle (jsub cap (sumEff frags)) (num 0) = true
            · rw [if_pos hcl, if_pos hcl]
              have h3 : weekFuel s (w + 1) ≤ fuel := by omega
              rw [ih h3, hstep]
            · rw [if_neg hcl, if_neg hcl]
              have h3 : weekFuel s (w + 1) ≤ fuel := by omega
              rw [ih h3, hstep]
        · rw [if_neg hg, if_neg hg]
      · have hns : ¬ w ≤ s := hws
        simp [placeLoop, hns]

/-- Every integer key `1 ≤ m ≤ s` is present in the week map. -/
def intKeyDom (s : ℚ) (bw : List (ℚ × List Initiative)) : Prop :=
  ∀ m : ℤ, 1 ≤ m → (m : ℚ) ≤ s → ((m : ℚ) ∈ bw.map Prod.fst)

theorem intKeyDom_of_keys {s : ℚ} {bw bw' : List (ℚ × List Initiative)}
    (hk : bw'.map Prod.fst = bw.map Prod.fst) (h : intKeyDom s bw) : intKeyDom s bw' := by
  intro m h1 h2
  rw [hk]
  exact h m h1 h2

theorem initWeeks_intKeyDom (s : ℚ) : intKeyDom s (initWeeks s) := by
  intro m h1 h2
  have hm : m ≤ ⌊s⌋ := Int.le_floor.mpr h2
  simp only [initWeeks, List.map_map, List.mem_map, Function.comp]
  refine ⟨(m - 1).toNat, ?_, ?_⟩
  · rw [List.mem_range]
    omega
  · have h3 : ((m - 1).toNat : ℤ) + 1 = m := by omega
    push_cast
    exact_mod_cast congrArg (fun z : ℤ => (z : ℚ)) h3

theorem placeLoop_int_ok {cap : JsNum} {s : ℚ} {item : Initiative} :
    ∀ (fuel : ℕ) {rem : JsNum} (m : ℤ) {bw : List (ℚ × List Initiative)}
      {em : List Initiative},
    1 ≤ m → intKeyDom s bw →
    ∃ out, placeLoop cap s item fuel rem (m : ℚ) bw em = .ok out := by
  intro fuel
  induction fuel with
  | zero =>
    intro rem m bw em h1 hdom
    exact ⟨_, rfl⟩
  | succ fuel ih =>
    intro rem m bw em h1 hdom
    rw [placeLoop]
    by_cases hg : (jlt (num 0) rem && decide ((m : ℚ) ≤ s)) = true
    · rw [if_pos hg]
      have hle : (m : ℚ) ≤ s := by
        have h2 := (Bool.and_eq_true _ _).mp hg
        exact of_decide_eq_true h2.2
      have hsome : (lookupW (m : ℚ) bw).isSome :=
        lookupW_isSome_iff.mpr (hdom m h1 hle)
      cases hlk : lookupW (m : ℚ) bw with
      | none => rw [hlk] at hsome; simp at hsome
      | some frags =>
        dsimp only
        have hcast : (m : ℚ) + 1 = ((m + 1 : ℤ) : ℚ) := by push_cast; ring
        by_cases hcl : jle (jsub cap (sumEff frags)) (num 0) = true
        · rw [if_pos hcl, hcast]
          exact ih (m + 1) (by omega) hdom
        · rw [if_neg hcl, hcast]
          exact ih (m + 1) (by omega)
            (intKeyDom_of_keys (updateW_keys _ _ _) hdom)
    · rw [if_neg hg]
      exact ⟨_, rfl⟩

theorem placeItem_int_ok {cap : JsNum} {s : ℚ} {bw : List (ℚ × List Initiative)}
    {item : Initiative}
    (hweek : item.week = nan ∨ ∃ k : ℤ, item.week = num k)
    (hdom : intKeyDom s bw) :
    ∃ out, placeItem cap s bw item = .ok out := by
  rcases hweek with hnan | ⟨k, hk⟩
  · rw [placeItem, hnan]
    exact ⟨_, rfl⟩
  · rw [placeItem, hk]
    have hmax : jmax1 (num (k : ℚ)) = num ((max 1 k : ℤ) : ℚ) := by
      simp only [jmax1, JsNum.num.injEq]
      push_cast
      rfl
    rw [hmax]
    dsimp only
    obtain ⟨out, hout⟩ :=
      @placeLoop_int_ok cap s item (weekFuel s ((max 1 k : ℤ) : ℚ))
        item.effortManDays (max 1 k) bw [] (le_max_left _ _) hdom
    rw [hout]
    exact ⟨_, rfl⟩

theorem goSchedule_int_ok {cap : JsNum} {s : ℚ} :
    ∀ {items : List Initiative} {bw bl res},
    (∀ i ∈ items, i.week = nan ∨ ∃ k : ℤ, i.week = num k) →
    intKeyDom s bw →
    ∃ out, goSchedule cap s items bw bl res = .ok out := by
  intro items
  induction items with
  | nil =>
    intro bw bl res _ _
    exact ⟨_, rfl⟩
  | cons item rest ih =>
    intro bw bl res hw hdom
    obtain ⟨out, hout⟩ := placeItem_int_ok (hw item (List.mem_cons_self _ _)) hdom
    rw [goSchedule, hout]
    exact ih (fun i hi => hw i (List.mem_cons_of_mem _ hi))
      (intKeyDom_of_keys (placeItem_keys hout) hdom)

/-- With every requested week either NaN or an integer, the engine returns a
plan (never throws). -/
theorem schedule_int_ok {inits : List Initiative} {tw md : JsNum}
    (hw : ∀ i ∈ inits, i.week = nan ∨ ∃ k : ℤ, i.week = num k) :
    ∃ out, schedule inits tw md = .ok out := by
  obtain ⟨out, hout⟩ := @goSchedule_int_ok (jdiv md (num (safeWeeks tw)))
    (safeWeeks tw) (jsSort inits) (initWeeks (safeWeeks tw)) [] []
    (fun i hi => hw i ((jsSort_perm inits).mem_iff.mp hi))
    (initWeeks_intKeyDom (safeWeeks tw))
  rw [schedule, hout]
  exact ⟨_, rfl⟩

/-! ## From `schedule` back to `goSchedule` -/

theorem schedule_ok_elim {inits : List Initiative} {tw md : JsNum} {out : Sched}
    (h : schedule inits tw md = .ok out) :
    ∃ res, goSchedule (jdiv md (num (safeWeeks tw))) (safeWeeks tw) (jsSort inits)
      (initWeeks (safeWeeks tw)) [] [] = .ok (out.byWeek, out.backlog, res) := by
  rw [schedule] at h
  split at h
  · exact absurd h (by simp)
  · rename_i o ho
    simp only [Except.ok.injEq] at h
    subst h
    exact ⟨o.2.2, by rw [ho]⟩

theorem initWeeks_allNumW (s : ℚ) : allNumW (initWeeks s) := by
  intro p hp f hf
  simp only [initWeeks, List.mem_map] at hp
  obtain ⟨k, _, rfl⟩ := hp
  simp at hf

theorem initWeeks_weekOkW {c : ℚ} (h : 0 ≤ c) (s : ℚ) : weekOkW c (initWeeks s) := by
  intro p hp
  simp only [initWeeks, List.mem_map] at hp
  obtain ⟨k, _, rfl⟩ := hp
  exact ⟨0, rfl, h⟩

theorem safeWeeks_pos (tw : JsNum) : 0 < safeWeeks tw := by
  cases tw with
  | nan => norm_num [safeWeeks]
  | num q =>
    by_cases h : 0 < q
    · simp [safeWeeks, h]
    · norm_num [safeWeeks, h]

theorem jdiv_num_safeWeeks (m : ℚ) (tw : JsNum) :
    jdiv (num m) (num (safeWeeks tw)) = num (m / safeWeeks tw) := by
  simp [jdiv, (safeWeeks_pos tw).ne']

/-! ## Claims -/

/-- C1 counterexample: the claim quantifies over every call with
`effortManDays ≥ 0`, but with `manDays = NaN` (so `weeklyCapacity = NaN`) a
single initiative of effort `1 ≥ 0` at week 1 gets one fragment of NaN
effort, is **not** placed in the backlog, and the sum of its emitted
fragments is NaN, not its original effort `1`.  So conservation fails as
stated. -/
theorem C1_cex_nan_capacity :
    goSchedule (jdiv nan (num (safeWeeks (num 1)))) (safeWeeks (num 1))
        (jsSort [⟨num 1, "D", num 1, num 1, "OKR", [], []⟩])
        (initWeeks (safeWeeks (num 1))) [] []
      = Except.ok ([(1, [⟨num 1, "D", nan, num 1, "OKR", [], []⟩])], [],
          [⟨[⟨num 1, "D", nan, num 1, "OKR", [], []⟩], nan⟩]) ∧
    schedule [⟨num 1, "D", num 1, num 1, "OKR", [], []⟩] (num 1) nan
      = Except.ok ⟨[(1, [⟨num 1, "D", nan, num 1, "OKR", [], []⟩])], []⟩ ∧
    sumEff [⟨num 1, "D", nan, num 1, "OKR", [], []⟩] ≠ num 1 :=
  ⟨by with_unfolding_all rfl, by with_unfolding_all rfl, by decide⟩

/-- C1 (amended: `manDays` must additionally be a number, i.e. the weekly
capacity must not be NaN): for every call to the allocation engine with
numeric `manDays` and all `effortManDays ≥ 0`, and for every initiative
whose `id` does not appear in the output backlog, the sum of the
`effortManDays` of the fragments emitted for that initiative across the
weeks equals the initiative's original `effortManDays`.  The engine run is
given by `goSchedule`, whose third output component records, per processed
initiative (in processing order), exactly the fragments emitted for it. -/
theorem C1_effort_conservation {inits : List Initiative} {tw : JsNum} {m : ℚ}
    (heff : ∀ i ∈ inits, ∃ e, i.effortManDays = num e ∧ 0 ≤ e)
    {bw : List (ℚ × List Initiative)} {bl : List Initiative} {results : List ItemResult}
    (hok : goSchedule (jdiv (num m) (num (safeWeeks tw))) (safeWeeks tw) (jsSort inits)
      (initWeeks (safeWeeks tw)) [] [] = .ok (bw, bl, results)) :
    schedule inits tw (num m) = .ok ⟨bw, bl⟩ ∧
    List.Forall₂ (fun item x => item.id ∉ bl.map Initiative.id →
      sumEff x.emitted = item.effortManDays) (jsSort inits) results := by
  refine ⟨by rw [schedule, hok], ?_⟩
  rw [jdiv_num_safeWeeks] at hok
  have heff2 : ∀ i ∈ jsSort inits, ∃ e, i.effortManDays = num e ∧ 0 ≤ e :=
    fun i hi => heff i ((jsSort_perm inits).mem_iff.mp hi)
  obtain ⟨newRes, hres, hall, hfa⟩ := goSchedule_conserve hok heff2 (initWeeks_allNumW _)
  simp only [List.nil_append] at hres
  subst hres
  obtain ⟨newRes2, hres2, hlen2, hbl⟩ := goSchedule_backlog hok
  simp only [List.nil_append] at hres2 hbl
  subst hres2
  refine List.forall₂_iff_zip.mpr ⟨hfa.length_eq, ?_⟩
  intro item x hp
  obtain ⟨e, r₂, he, hrem, hr₂0, hsum⟩ := (List.forall₂_iff_zip.mp hfa).2 hp
  intro hid
  have hr₂ : r₂ = 0 := by
    by_contra hne
    have hpos : 0 < r₂ := lt_of_le_of_ne hr₂0 (Ne.symm hne)
    have hjlt : jlt (num 0) x.remaining = true := by
      rw [hrem]; simp [jlt, hpos]
    have hmem : item ∈ bl := by
      rw [hbl]
      exact List.mem_filterMap.mpr ⟨(item, x), hp, by simp [hjlt]⟩
    exact hid (List.mem_map_of_mem Initiative.id hmem)
  rw [hsum, he, hr₂]
  norm_num

/-- C1 witness: a single initiative of effort 2 with capacity 5 is fully
placed; its emitted fragments sum to its original effort. -/
theorem C1_witness :
    schedule [⟨num 1, "A", num 2, num 1, "O", [], []⟩] (num 1) (num 5)
      = .ok ⟨[(1, [⟨num 1, "A", num 2, num 1, "O", [], []⟩])], []⟩ ∧
    List.Forall₂ (fun (item : Initiative) (x : ItemResult) =>
        item.id ∉ ([] : List Initiative).map Initiative.id →
        sumEff x.emitted = item.effortManDays)
      (jsSort [⟨num 1, "A", num 2, num 1, "O", [], []⟩])
      ([⟨[⟨num 1, "A", num 2, num 1, "O", [], []⟩], num 0⟩] : List ItemResult) :=
  C1_effort_conservation
    (by intro i hi
        rcases List.mem_cons.mp hi with rfl | hi
        · exact ⟨2, rfl, by norm_num⟩
        · simp at hi)
    (by with_unfolding_all rfl)

/-- C2 counterexample: with `totalManDays = -5` and one week, the weekly
capacity is `-5`; week 1 is empty, yet its fragment-effort sum `0` exceeds
the capacity `-5`.  So the bound fails as stated for negative capacity. -/
theorem C2_cex_negative_capacity :
    schedule ([] : List Initiative) (num 1) (num (-5)) = Except.ok ⟨[(1, [])], []⟩ ∧
    jle (sumEff []) (jdiv (num (-5)) (num (safeWeeks (num 1)))) = false :=
  ⟨by with_unfolding_all rfl, by with_unfolding_all decide⟩

/-- C2 (amended: additionally `manDays ≥ 0`, hence `weeklyCapacity ≥ 0`):
for every call with numeric non-negative `manDays` and every week of the
output, the sum of the fragment efforts placed in that week is an exact
rational that never exceeds `weeklyCapacity = manDays / safeWeeks`.  (The
per-emission preservation argument underlying this is `placeLoop_cap`.) -/
theorem C2_capacity_bound {inits : List Initiative} {tw : JsNum} {m : ℚ}
    (hm : 0 ≤ m) {out : Sched}
    (hok : schedule inits tw (num m) = .ok out) :
    ∀ p ∈ out.byWeek, ∃ t, sumEff p.2 = num t ∧ t ≤ m / safeWeeks tw := by
  obtain ⟨res, hgo⟩ := schedule_ok_elim hok
  rw [jdiv_num_safeWeeks] at hgo
  exact goSchedule_cap hgo
    (initWeeks_weekOkW (div_nonneg hm (le_of_lt (safeWeeks_pos tw))) _)

/-- C2 witness: empty plan, capacity 5: week 1 is empty and sums to `0 ≤ 5`. -/
theorem C2_witness :
    ∃ t, sumEff ((1 : ℚ), ([] : List Initiative)).2 = num t ∧ t ≤ 5 / safeWeeks (num 1) :=
  @C2_capacity_bound [] (num 1) 5 (by norm_num) ⟨[(1, [])], []⟩
    (by with_unfolding_all rfl) ((1 : ℚ), ([] : List Initiative)) (by simp)

/-- C3: for every successful engine run, the backlog is exactly the sequence
of processed initiatives whose placement ended with `remaining > 0`, each
appended once as the **original, unmodified record** — hence carrying its
original, unsplit `effortManDays` and original `week` — and every fragment
that was already emitted for any initiative (including backlogged ones)
remains present in the weekly output alongside the backlog entry. -/
theorem C3_backlog_accounting {inits : List Initiative} {tw md : JsNum}
    {bw : List (ℚ × List Initiative)} {bl : List Initiative} {results : List ItemResult}
    (hok : goSchedule (jdiv md (num (safeWeeks tw))) (safeWeeks tw) (jsSort inits)
      (initWeeks (safeWeeks tw)) [] [] = .ok (bw, bl, results)) :
    schedule inits tw md = .ok ⟨bw, bl⟩ ∧
    bl = ((jsSort inits).zip results).filterMap
      (fun p => if jlt (num 0) p.2.remaining then some p.1 else none) ∧
    ∀ p ∈ (jsSort inits).zip results, ∀ f ∈ p.2.emitted, memBW f bw := by
  refine ⟨by rw [schedule, hok], ?_, ?_⟩
  · obtain ⟨newRes, hres, hlen, hbl⟩ := goSchedule_backlog hok
    simp only [List.nil_append] at hres hbl
    rw [← hres] at hbl
    simpa using hbl
  · intro p hp f hf
    have hmem : p.2 ∈ results := (List.of_mem_zip hp).2
    exact goSchedule_emitted hok (by simp) p.2 hmem f hf

/-- C3 witness: effort 3 against capacity 1: one fragment of effort 1 is
placed in week 1, and the backlog holds the original record with its full
effort 3 and original week 1, while the placed fragment stays in week 1. -/
theorem C3_witness :
    schedule [⟨num 1, "A", num 3, num 1, "O", [], []⟩] (num 1) (num 1)
      = .ok ⟨[(1, [⟨num 1, "A", num 1, num 1, "O", [], []⟩])],
             [⟨num 1, "A", num 3, num 1, "O", [], []⟩]⟩ ∧
    [⟨num 1, "A", num 3, num 1, "O", [], []⟩]
      = ((jsSort [⟨num 1, "A", num 3, num 1, "O", [], []⟩]).zip
          ([⟨[⟨num 1, "A", num 1, num 1, "O", [], []⟩], num 2⟩] : List ItemResult)).filterMap
        (fun p => if jlt (num 0) p.2.remaining then some p.1 else none) ∧
    memBW ⟨num 1, "A", num 1, num 1, "O", [], []⟩
      [(1, [⟨num 1, "A", num 1, num 1, "O", [], []⟩])] := by
  have h := @C3_backlog_accounting [⟨num 1, "A", num 3, num 1, "O", [], []⟩]
    (num 1) (num 1) [(1, [⟨num 1, "A", num 1, num 1, "O", [], []⟩])]
    [⟨num 1, "A", num 3, num 1, "O", [], []⟩]
    [⟨[⟨num 1, "A", num 1, num 1, "O", [], []⟩], num 2⟩]
    (by with_unfolding_all rfl)
  refine ⟨h.1, h.2.1, ?_⟩
  refine h.2.2 (⟨num 1, "A", num 3, num 1, "O", [], []⟩,
      ⟨[⟨num 1, "A", num 1, num 1, "O", [], []⟩], num 2⟩) ?_
    ⟨num 1, "A", num 1, num 1, "O", [], []⟩ (by decide)
  with_unfolding_all decide

/-- C5: the worked example.  With `weekCount = 2`, `totalManDays = 10`
(weekly capacity 5) and initiatives `A{id 1, effort 7, week 1}`,
`B{id 2, effort 4, week 1}`, the engine produces week 1 = `[A:5]`,
week 2 = `[A:2, B:3]` (in that order) and backlog = `[B]` with B's original
effort 4 and original week 1 — exactly as the specification's example
states. -/
theorem C5_worked_example :
    schedule [⟨num 1, "A", num 7, num 1, "OKR", [], []⟩,
              ⟨num 2, "B", num 4, num 1, "OKR", [], []⟩] (num 2) (num 10)
      = Except.ok ⟨[(1, [⟨num 1, "A", num 5, num 1, "OKR", [], []⟩]),
                    (2, [⟨num 1, "A", num 2, num 2, "OKR", [], []⟩,
                         ⟨num 2, "B", num 3, num 2, "OKR", [], []⟩])],
                   [⟨num 2, "B", num 4, num 1, "OKR", [], []⟩]⟩ := by
  with_unfolding_all rfl

/-- C6: for every successful engine run, the output week mapping has exactly
the keys `1, …, ⌊safeWeeks⌋` in order (so no fragment ever sits under a key
outside that range), and `safeWeeks` — the effective week count — equals
`weekCount` when the latter is a finite number `> 0` and `1` otherwise
(NaN, zero, or negative). -/
theorem C6_week_completeness {inits : List Initiative} {tw md : JsNum} {out : Sched}
    (hok : schedule inits tw md = .ok out) :
    out.byWeek.map Prod.fst =
      (List.range (Int.toNat ⌊safeWeeks tw⌋)).map (fun k => ((k + 1 : ℕ) : ℚ)) ∧
    safeWeeks nan = 1 ∧
    (∀ q : ℚ, 0 < q → safeWeeks (num q) = q) ∧
    (∀ q : ℚ, ¬ 0 < q → safeWeeks (num q) = 1) := by
  refine ⟨?_, rfl, fun q hq => by simp [safeWeeks, hq], fun q hq => by simp [safeWeeks, hq]⟩
  obtain ⟨res, hgo⟩ := schedule_ok_elim hok
  have hk := goSchedule_keys hgo
  rw [hk]
  simp [initWeeks, List.map_map, Function.comp]

/-- C6 witness: `weekCount = 5/2` (finite, positive, non-integer) with no
initiatives: keys are exactly `1, 2`. -/
theorem C6_witness :
    (Sched.mk [(1, []), (2, [])] []).byWeek.map Prod.fst =
      (List.range (Int.toNat ⌊safeWeeks (num (5/2))⌋)).map (fun k => ((k + 1 : ℕ) : ℚ)) ∧
    safeWeeks nan = 1 ∧ safeWeeks (num 2) = 2 ∧ safeWeeks (num (-3)) = 1 := by
  have h := @C6_week_completeness [] (num (5/2)) (num 10) (Sched.mk [(1, []), (2, [])] [])
    (by with_unfolding_all rfl)
  exact ⟨h.1, h.2.1, h.2.2.1 2 (by norm_num), h.2.2.2 (-3) (by norm_num)⟩

/-- C4: (i) with numeric weeks and ids, the engine's processing order — the
sorted list it iterates over — is a permutation of the input that is sorted
ascending by requested `week` with ties broken by ascending `id`; (ii) in
particular, for two initiatives with the same week `1`, distinct numeric
ids `ia < ib`, and weekly capacity `C` sufficient for only one of them
(`0 < ea ≤ C` but `C - ea < eb`), presented in the *opposite* order
`[b, a]`, the lower-id initiative `a` is placed first and claims the
capacity: week 1 starts with `a`'s full-effort fragment and `b` is the one
backlogged. -/
theorem C4_processing_order :
    (∀ inits : List Initiative, (∀ i ∈ inits, finKey i) →
      List.Perm (jsSort inits) inits ∧ List.Pairwise lexLe (jsSort inits)) ∧
    (∀ (a b : Initiative) (C ea eb ia ib : ℚ),
      a.week = num 1 → b.week = num 1 →
      a.id = num ia → b.id = num ib → ia < ib →
      a.effortManDays = num ea → b.effortManDays = num eb →
      0 < ea → ea ≤ C → C - ea < eb →
      ∃ rest, schedule [b, a] (num 1) (num C) =
        .ok ⟨[(1, { a with effortManDays := num ea, week := num 1 } :: rest)], [b]⟩) := by
  constructor
  · intro inits hfin
    exact ⟨jsSort_perm inits, jsSort_pairwise hfin⟩
  · intro a b C ea eb ia ib haw hbw haid hbid hij hae hbe hea0 heaC hCb
    have h0C : 0 < C := lt_of_lt_of_le hea0 heaC
    have heb0 : 0 < eb := lt_of_le_of_lt (sub_nonneg.mpr heaC) hCb
    have hs : safeWeeks (num 1) = 1 := by norm_num [safeWeeks]
    have hle : ¬ jsLeB b a = true := by
      rw [jsLeB_char hbw haw hbid haid]
      push_neg
      exact ⟨by norm_num, fun _ => hij⟩
    have hleb : jsLeB b a = false := by
      cases hjs : jsLeB b a
      · rfl
      · exact absurd hjs hle
    have hsort : jsSort [b, a] = [a, b] := by
      simp [jsSort, jsInsert, hleb]
    have hiw : initWeeks (safeWeeks (num 1)) = [(1, [])] := by
      rw [hs]
      unfold initWeeks
      rw [show Int.toNat ⌊(1:ℚ)⌋ = 1 by norm_num, show List.range 1 = [0] from rfl]
      norm_num
    have hcap : jdiv (num C) (num (safeWeeks (num 1))) = num C := by
      rw [hs]
      simp [jdiv]
    have hfuel : weekFuel 1 1 = 2 := by
      unfold weekFuel
      rw [show ⌊(1:ℚ)⌋ = 1 by norm_num, show ⌈(1:ℚ)⌉ = 1 by norm_num]
      decide
    have hloopA : placeLoop (num C) 1 a 2 (num ea) 1 [(1, [])] [] =
        .ok ([(1, [{ a with effortManDays := num ea, week := num 1 }])], num 0,
          [{ a with effortManDays := num ea, week := num 1 }]) := by
      rw [placeLoop]
      rw [if_pos (show (jlt (num 0) (num ea) && decide ((1:ℚ) ≤ 1)) = true by
        simp [jlt, hea0])]
      rw [show lookupW 1 [(1, ([] : List Initiative))] = some [] by simp [lookupW]]
      dsimp only
      rw [show jsub (num C) (sumEff []) = num C by simp [sumEff, jsub]]
      rw [if_neg (show ¬ jle (num C) (num 0) = true by simp [jle, not_le, h0C])]
      rw [show jmin (num ea) (num C) = num ea by simp [jmin, min_eq_left heaC]]
      rw [show jsub (num ea) (num ea) = num 0 by simp [jsub]]
      rw [show updateW 1 { a with effortManDays := num ea, week := num 1 } [(1, [])]
          = [(1, [{ a with effortManDays := num ea, week := num 1 }])] by simp [updateW]]
      rw [placeLoop]
      rw [if_neg (show ¬ (jlt (num 0) (num 0) && decide ((1:ℚ) + 1 ≤ 1)) = true by
        simp [jlt])]
      simp
    have hpiA : placeItem (num C) 1 [(1, [])] a =
        .ok ([(1, [{ a with effortManDays := num ea, week := num 1 }])],
          ⟨[{ a with effortManDays := num ea, week := num 1 }], num 0⟩) := by
      rw [placeItem]
      rw [show jmax1 a.week = num 1 by rw [haw]; simp [jmax1]]
      dsimp only
      rw [hae, hfuel, hloopA]
    have hsumA : jsub (num C) (sumEff [{ a with effortManDays := num ea, week := num 1 }])
        = num (C - ea) := by simp [sumEff, jadd, jsub]
    rcases le_or_lt (C - ea) 0 with hC2 | hC2
    · have hloopB : placeLoop (num C) 1 b 2 (num eb) 1
          [(1, [{ a with effortManDays := num ea, week := num 1 }])] [] =
          .ok ([(1, [{ a with effortManDays := num ea, week := num 1 }])], num eb, []) := by
        rw [placeLoop]
        rw [if_pos (show (jlt (num 0) (num eb) && decide ((1:ℚ) ≤ 1)) = true by
          simp [jlt, heb0])]
        rw [show lookupW 1 [(1, [{ a with effortManDays := num ea, week := num 1 }])]
            = some [{ a with effortManDays := num ea, week := num 1 }] by simp [lookupW]]
        dsimp only
        rw [hsumA]
        rw [if_pos (show jle (num (C - ea)) (num 0) = true by simp [jle, hC2])]
        rw [placeLoop]
        rw [if_neg (show ¬ (jlt (num 0) (num eb) && decide ((1:ℚ) + 1 ≤ 1)) = true by
          norm_num)]
      have hpiB : placeItem (num C) 1
          [(1, [{ a with effortManDays := num ea, week := num 1 }])] b =
          .ok ([(1, [{ a with effortManDays := num ea, week := num 1 }])], ⟨[], num eb⟩) := by
        rw [placeItem]
        rw [show jmax1 b.week = num 1 by rw [hbw]; simp [jmax1]]
        dsimp only
        rw [hbe, hfuel, hloopB]
      refine ⟨[], ?_⟩
      rw [schedule, hsort, hiw, hcap, hs]
      rw [goSchedule, hpiA]
      dsimp only
      rw [show (if jlt (num 0) (num 0) = true then [a] else ([] : List Initiative)) = []
        by simp [jlt]]
      rw [goSchedule, hpiB]
      dsimp only
      rw [show (if jlt (num 0) (num eb) = true then [b] else ([] : List Initiative)) = [b]
        by simp [jlt, heb0]]
      rw [goSchedule]
      simp
    · have hloopB : placeLoop (num C) 1 b 2 (num eb) 1
          [(1, [{ a with effortManDays := num ea, week := num 1 }])] [] =
          .ok ([(1, [{ a with effortManDays := num ea, week := num 1 },
                     { b with effortManDays := num (C - ea), week := num 1 }])],
            num (eb - (C - ea)),
            [{ b with effortManDays := num (C - ea), week := num 1 }]) := by
        rw [placeLoop]
        rw [if_pos (show (jlt (num 0) (num eb) && decide ((1:ℚ) ≤ 1)) = true by
          simp [jlt, heb0])]
        rw [show lookupW 1 [(1, [{ a with effortManDays := num ea, week := num 1 }])]
            = some [{ a with effortManDays := num ea, week := num 1 }] by simp [lookupW]]
        dsimp only
        rw [hsumA]
        rw [if_neg (show ¬ jle (num (C - ea)) (num 0) = true by simp [jle, not_le]; linarith)]
        rw [show jmin (num eb) (num (C - ea)) = num (C - ea) by
          simp [jmin, min_eq_right (le_of_lt hCb)]]
        rw [show jsub (num eb) (num (C - ea)) = num (eb - (C - ea)) by simp [jsub]]
        rw [show updateW 1 { b with effortManDays := num (C - ea), week := num 1 }
            [(1, [{ a with effortManDays := num ea, week := num 1 }])]
            = [(1, [{ a with effortManDays := num ea, week := num 1 },
                    { b with effortManDays := num (C - ea), week := num 1 }])] by
          simp [updateW]]
        rw [placeLoop]
        rw [if_neg (show ¬ (jlt (num 0) (num (eb - (C - ea))) &&
            decide ((1:ℚ) + 1 ≤ 1)) = true by norm_num)]
        simp
      have hpiB : placeItem (num C) 1
          [(1, [{ a with effortManDays := num ea, week := num 1 }])] b =
          .ok ([(1, [{ a with effortManDays := num ea, week := num 1 },
                     { b with effortManDays := num (C - ea), week := num 1 }])],
            ⟨[{ b with effortManDays := num (C - ea), week := num 1 }],
             num (eb - (C - ea))⟩) := by
        rw [placeItem]
        rw [show jmax1 b.week = num 1 by rw [hbw]; simp [jmax1]]
        dsimp only
        rw [hbe, hfuel, hloopB]
      refine ⟨[{ b with effortManDays := num (C - ea), week := num 1 }], ?_⟩
      rw [schedule, hsort, hiw, hcap, hs]
      rw [goSchedule, hpiA]
      dsimp only
      rw [show (if jlt (num 0) (num 0) = true then [a] else ([] : List Initiative)) = []
        by simp [jlt]]
      rw [goSchedule, hpiB]
      dsimp only
      rw [show (if jlt (num 0) (num (eb - (C - ea))) = true then [b]
          else ([] : List Initiative)) = [b] by simp [jlt]; linarith]
      rw [goSchedule]
      simp

/-- C4 witness: part (i) at a concrete two-element list; part (ii) with
`a{id 1, effort 4}`, `b{id 2, effort 3}`, capacity `6` (enough for `a`
alone: `6 - 4 = 2 < 3`), input order `[b, a]`. -/
theorem C4_witness :
    (List.Perm (jsSort [⟨num 1, "X", num 1, num 1, "O", [], []⟩,
                        ⟨num 2, "Y", num 1, num 1, "O", [], []⟩])
               [⟨num 1, "X", num 1, num 1, "O", [], []⟩,
                ⟨num 2, "Y", num 1, num 1, "O", [], []⟩] ∧
     List.Pairwise lexLe (jsSort [⟨num 1, "X", num 1, num 1, "O", [], []⟩,
                                  ⟨num 2, "Y", num 1, num 1, "O", [], []⟩])) ∧
    (∃ rest, schedule [⟨num 2, "B", num 3, num 1, "O", [], []⟩,
                       ⟨num 1, "A", num 4, num 1, "O", [], []⟩] (num 1) (num 6) =
      .ok ⟨[(1, ({ (⟨num 1, "A", num 4, num 1, "O", [], []⟩ : Initiative) with
                    effortManDays := num 4, week := num 1 } : Initiative) :: rest)],
           [⟨num 2, "B", num 3, num 1, "O", [], []⟩]⟩) :=
  ⟨C4_processing_order.1 [⟨num 1, "X", num 1, num 1, "O", [], []⟩,
                          ⟨num 2, "Y", num 1, num 1, "O", [], []⟩]
    (by intro i hi
        rcases List.mem_cons.mp hi with rfl | hi
        · exact ⟨⟨1, rfl⟩, ⟨1, rfl⟩⟩
        · rcases List.mem_cons.mp hi with rfl | hi
          · exact ⟨⟨1, rfl⟩, ⟨2, rfl⟩⟩
          · simp at hi),
   C4_processing_order.2 ⟨num 1, "A", num 4, num 1, "O", [], []⟩
     ⟨num 2, "B", num 3, num 1, "O", [], []⟩ 6 4 3 1 2 rfl rfl rfl rfl
     (by norm_num) rfl rfl (by norm_num) (by norm_num) (by norm_num)⟩

/-- C7: the engine's output is invariant under permutation of the canonical
initiative list, provided every initiative has a numeric `week` and `id` and
the ids are pairwise distinct; hence user-driven drag reordering
(`onDragEnd` only permutes the list via `arrayMove`) never changes the
computed plan. -/
theorem C7_order_invariance {l₁ l₂ : List Initiative} {tw md : JsNum}
    (hperm : List.Perm l₁ l₂)
    (hfin : ∀ i ∈ l₁, finKey i)
    (hnd : (l₁.map Initiative.id).Nodup) :
    schedule l₁ tw md = schedule l₂ tw md := by
  rw [schedule, schedule, jsSort_eq_of_perm hperm hfin hnd]

/-- C7 witness: swapping two initiatives yields the identical schedule. -/
theorem C7_witness :
    schedule [⟨num 1, "X", num 1, num 1, "O", [], []⟩,
              ⟨num 2, "Y", num 1, num 1, "O", [], []⟩] (num 2) (num 10) =
    schedule [⟨num 2, "Y", num 1, num 1, "O", [], []⟩,
              ⟨num 1, "X", num 1, num 1, "O", [], []⟩] (num 2) (num 10) :=
  C7_order_invariance
    (by constructor)
    (by intro i hi
        rcases List.mem_cons.mp hi with rfl | hi
        · exact ⟨⟨1, rfl⟩, ⟨1, rfl⟩⟩
        · rcases List.mem_cons.mp hi with rfl | hi
          · exact ⟨⟨1, rfl⟩, ⟨2, rfl⟩⟩
          · simp at hi)
    (by decide)

/-- C8: the code diverges from the claim.  The frontend
`normaliseInitiatives` rounds `effortManDays` to the nearest integer
(`2.5 ↦ 3`), but the backend `normalizeInitiatives` — despite its
"must align with frontend" comment — computes `Number(i.effortManDays) || 0`
**without** `Math.round`, so a numeric `2.5` passes through unrounded (and is
neither `0` nor an integer). -/
theorem C8_backend_effort_not_rounded :
    normalizeInitiatives 0 [⟨num 1, "T", num (5/2), num 1, "O", some [], some []⟩]
      = [⟨num 1, "T", num (5/2), num 1, "O", [], []⟩] ∧
    normaliseInitiatives 0 [⟨num 1, "T", num (5/2), num 1, "O", some [], some []⟩]
      = [⟨num 1, "T", num 3, num 1, "O", [], []⟩] ∧
    (num (5/2) : JsNum) ≠ num 3 ∧ (num (5/2) : JsNum) ≠ num 0 :=
  ⟨by with_unfolding_all decide, by with_unfolding_all decide,
   by with_unfolding_all decide, by with_unfolding_all decide⟩

/-- C9: the generate endpoint rejects a missing/non-array or empty `okrs`
with HTTP 400 and the message `"At least one OKR is required"` before any
producer call, and the modify endpoint rejects a missing or empty `command`
with HTTP 400 and `"Command is required"` before any producer call; the
`ProducerOutcome.reject` outcome by construction precedes the external call,
so no initiative list is produced. -/
theorem C9_producer_validation :
    (∀ okrs : Option (List String), (okrs = none ∨ okrs = some []) →
      generateRoadmapGate okrs = .reject 400 "At least one OKR is required") ∧
    (∀ cmd : Option String, (cmd = none ∨ cmd = some "") →
      modifyRoadmapGate cmd = .reject 400 "Command is required") := by
  constructor
  · rintro okrs (rfl | rfl) <;> simp [generateRoadmapGate]
  · rintro cmd (rfl | rfl) <;> simp [modifyRoadmapGate]

/-- C9 witness: the empty OKR list and the empty command are both
rejected. -/
theorem C9_witness :
    generateRoadmapGate (some []) = .reject 400 "At least one OKR is required" ∧
    modifyRoadmapGate (some "") = .reject 400 "Command is required" :=
  ⟨C9_producer_validation.1 (some []) (Or.inr rfl),
   C9_producer_validation.2 (some "") (Or.inr rfl)⟩

/-- C10 counterexample: the engine is *not* a total function of its inputs.
An initiative with the finite, non-integer week `3/2` (reachable: the
normalisers keep any numeric `week` unchanged) and positive effort makes the
loop evaluate `byWeek[1.5].reduce(...)` where `byWeek[1.5]` is `undefined`,
so the computation throws a TypeError instead of producing a plan. -/
theorem C10_cex_fractional_week :
    schedule [⟨num 1, "C", num 1, num (3/2), "OKR", [], []⟩] (num 2) (num 10)
      = Except.error "TypeError: byWeek[w] is undefined" := by
  with_unfolding_all rfl

/-- C10 (amended: the loop always halts — the cursor `w` strictly increases
in both branches, so each initiative's inner loop runs at most
`weekFuel s w = (⌊safeWeeks⌋ + 2 - ⌈w⌉)⁺` iterations for **all** inputs,
including zero, negative, non-integer and NaN effort, week, weekCount and
capacity values — but the engine is a total function *returning a plan* only
on inputs whose requested weeks are NaN or integral; a finite non-integer
week inside the range raises a TypeError instead, see the counterexample):
(i) any fuel at least `weekFuel s w` gives the same loop result, i.e. the
loop halts within that bound; (ii) whenever every initiative's `week` is NaN
or an integer, the engine returns a plan. -/
theorem C10_termination :
    (∀ (cap : JsNum) (s : ℚ) (item : Initiative) (fuel : ℕ) (rem : JsNum) (w : ℚ)
        (bw : List (ℚ × List Initiative)) (em : List Initiative),
      weekFuel s w ≤ fuel →
      placeLoop cap s item fuel rem w bw em =
        placeLoop cap s item (weekFuel s w) rem w bw em) ∧
    (∀ (inits : List Initiative) (tw md : JsNum),
      (∀ i ∈ inits, i.week = nan ∨ ∃ k : ℤ, i.week = num k) →
      ∃ out, schedule inits tw md = .ok out) :=
  ⟨fun _ _ _ fuel _ _ _ _ h => placeLoop_fuel fuel h,
   fun _ _ _ hw => schedule_int_ok hw⟩

/-- C10 witness: (i) at fuel 5 ≥ `weekFuel 1 1 = 2` the loop result is the
result at the bound; (ii) a NaN-week initiative list yields a plan. -/
theorem C10_witness :
    placeLoop nan 1 ⟨num 1, "I", num 1, num 1, "O", [], []⟩ 5 nan 1 [] [] =
      placeLoop nan 1 ⟨num 1, "I", num 1, num 1, "O", [], []⟩ (weekFuel 1 1) nan 1 [] [] ∧
    ∃ out, schedule [⟨num 1, "I", num 1, nan, "O", [], []⟩] (num 1) (num 1) = .ok out :=
  ⟨C10_termination.1 nan 1 ⟨num 1, "I", num 1, num 1, "O", [], []⟩ 5 nan 1 [] []
    (by with_unfolding_all decide),
   C10_termination.2 [⟨num 1, "I", num 1, nan, "O", [], []⟩] (num 1) (num 1)
    (by intro i hi
        rcases List.mem_cons.mp hi with rfl | hi
        · exact Or.inl rfl
        · simp at hi)⟩

end Roadmap
